import Mathlib

/-!
Verification of the list-then-detail crawler scripts.

Shallow embedding of the repository's three scripts:

* `Crawler/crawler.py` — a Selenium/BeautifulSoup Jira crawler.  The
  HTML-tree queries performed through BeautifulSoup (`select_one`, `find`,
  `find_all`) are modelled as oracle fields of a `Soup` structure, one field
  per query the code performs; all control flow, defaulting, dictionary
  building, normalisation and string formatting is translated faithfully.
* `Kaggle/script.py` and `script.py` — GitHub API polling scripts; HTTP
  responses are modelled as a `Resp` structure (status code, optional
  `Link` header, optional parsed JSON body).

Python dictionaries are modelled as association lists (`List (String ×
String)`) in insertion order; the keys inserted by the crawler are pairwise
distinct string literals, so insertion is `append`.  Python exceptions are
modelled with `Except String`.
-/

namespace Crawler

/-- Whitespace test for the character class `\s` used by
`re.sub(r'\s+', ' ', text)` and by `str.strip()` in `clean_text`
(modelled over the ASCII whitespace characters). -/
def pyIsSpace (c : Char) : Bool :=
  c == ' ' || c == '\t' || c == '\n' || c == '\r' || c == '\x0b' || c == '\x0c'

/-- The substitution `re.sub(r'\s+', ' ', text)`: each maximal run of
whitespace characters is replaced by a single space (the space is emitted
at the last character of the run). -/
def squeezeWs : List Char → List Char
  | [] => []
  | c :: rest =>
    if pyIsSpace c then
      match rest with
      | [] => [' ']
      | d :: _ => if pyIsSpace d then squeezeWs rest else ' ' :: squeezeWs rest
    else c :: squeezeWs rest

/-- Python `str.strip()`: remove leading and trailing whitespace. -/
def pyStrip (l : List Char) : List Char :=
  List.rdropWhile pyIsSpace (l.dropWhile pyIsSpace)

/-- `clean_text(text)` from `Crawler/crawler.py`:
`re.sub(r'\s+', ' ', text).strip()`. -/
def clean_text (s : String) : String :=
  String.mk (pyStrip (squeezeWs s.data))

/-- Observation: the character list contains no two adjacent whitespace
characters. -/
def noTwoAdjWs : List Char → Bool
  | c :: d :: rest => (!(pyIsSpace c && pyIsSpace d)) && noTwoAdjWs (d :: rest)
  | _ => true

/-- Observation: the character list does not start with whitespace. -/
def noLeadingWs : List Char → Bool
  | [] => true
  | c :: _ => !pyIsSpace c

/-- Observation: the character list does not end with whitespace. -/
def noTrailingWs (l : List Char) : Bool := noLeadingWs l.reverse

/-- Observation: every whitespace character in the list is the plain
space character. -/
def wsOnlySpace (l : List Char) : Bool := l.all (fun c => !pyIsSpace c || c == ' ')

/-- The delimiter `" | "` used by `process_issue` to flatten comments,
as a character list. -/
def barDelim : List Char := [' ', '|', ' ']

/-- Python `" | ".join(l)` at the character-list level. -/
def joinBar : List (List Char) → List Char
  | [] => []
  | [s] => s
  | s :: t :: rest => s ++ barDelim ++ joinBar (t :: rest)

/-- Python `" | ".join(l)` on strings (the call in `process_issue`). -/
def pyJoinBar : List String → String
  | [] => ""
  | [s] => s
  | s :: t :: rest => s ++ " | " ++ pyJoinBar (t :: rest)

/-- Prepend a character to the first piece of a split result. -/
def consHead (c : Char) : List (List Char) → List (List Char)
  | [] => [[c]]
  | s :: ss => (c :: s) :: ss

/-- Python `text.split(" | ")` with explicit fuel (one unit per character):
scan left to right, cutting at each leftmost occurrence of the delimiter. -/
def splitBarF : Nat → List Char → List (List Char)
  | 0, l => [l]
  | _ + 1, [] => [[]]
  | fuel + 1, c :: rest =>
    if barDelim.isPrefixOf (c :: rest) then [] :: splitBarF fuel (rest.drop 2)
    else consHead c (splitBarF fuel rest)

/-- Python `text.split(" | ")`: the observation used to count the
`" | "`-separated segments of the flattened comment string. -/
def splitBar (l : List Char) : List (List Char) := splitBarF l.length l

/-- Does the character list contain the delimiter `" | "` as a
contiguous substring? -/
def hasBar : List Char → Bool
  | [] => false
  | c :: rest => barDelim.isPrefixOf (c :: rest) || hasBar rest

/-- One anchor (`<a>`) element: its `class` attribute as returned by
`a.get("class")` (`none` when absent) and its `get_text(strip=True)`. -/
structure Anchor where
  classes : Option (List String)
  text : String

/-- An `action-details` div of one comment: `details.find_all("a")` in
document order and `details.get_text(separator=" ", strip=True)`. -/
structure DetailsDiv where
  anchors : List Anchor
  text : String

/-- A `concise` div: its first descendant div whose class list contains
`"action-details"`, when one exists. -/
structure ConciseDiv where
  details : Option DetailsDiv

/-- One `div` with id matching `comment-<n>` inside the comments container:
its first descendant div whose class list contains `"concise"`, when one
exists. -/
structure CommentDiv where
  concise : Option ConciseDiv

/-- The people section
(`soup.find("div", class_="item-details people-details")`): the stripped
texts of `span#assignee-val` and `span#reporter-val` when present. -/
structure PeopleSection where
  assigneeVal : Option String
  reporterVal : Option String

/-- Oracle model of the parsed detail page (the `BeautifulSoup` object):
one field per tree query `process_issue`'s helpers perform. -/
structure Soup where
  /-- `soup.select_one(sel).get_text(strip=True)` by CSS selector; `none`
  when no element matches the selector. -/
  selectOne : String → Option String
  /-- `soup.find("div", class_="item-details people-details")`. -/
  peopleSection : Option PeopleSection
  /-- `soup.find("span", id=<spanId>)` for the date spans: `some inner`
  when the span exists, where `inner` is the stripped text of its first
  `<time>` child (`none` when it has no `<time>` child). -/
  dateSpan : String → Option (Option String)
  /-- `soup.find("div", id="description-val")`, its
  `get_text(separator="\n", strip=True)` when present. -/
  descriptionDiv : Option String
  /-- `soup.find("div", id="issue_actions_container")` with its
  `div[id^="comment-"]` descendants in document order. -/
  commentsContainer : Option (List CommentDiv)

/-- The `fields` table of `extract_details`. -/
def detailFields : List (String × String) :=
  [("Type", "#type-val"), ("Status", "#status-val"),
   ("Priority", "#priority-val"), ("Resolution", "#resolution-val"),
   ("Affects Version/s", "#versions-val"), ("Fix Version/s", "#fixfor-val"),
   ("Component/s", "#components-val"), ("Labels", "#labels-13028113-value")]

/-- The `custom_fields` table of `extract_details`. -/
def customFields : List (String × String) :=
  [("Patch Info", "#customfield_12310041-val"),
   ("Estimated Complexity", "#customfield_12310060-val")]

/-- One `for key, selector in fields.items()` loop: add `(key, text)` to
the dictionary when the lookup finds an element (the keys of every table
are pairwise distinct, so `data[key] = text` is an append). -/
def extractAssoc (f : String → Option String) (fs : List (String × String))
    (data : List (String × String)) : List (String × String) :=
  fs.foldl (fun d ks =>
    match f ks.2 with
    | some t => d ++ [(ks.1, t)]
    | none => d) data

/-- `extract_details(soup)`: the `fields` loop followed by the
`custom_fields` loop, both writing into the same dictionary. -/
def extract_details (soup : Soup) : List (String × String) :=
  extractAssoc soup.selectOne customFields
    (extractAssoc soup.selectOne detailFields [])

/-- `extract_people_data(soup)`: nothing without the people section;
otherwise `Assignee` and then `Reporter`, each only when its span exists. -/
def extract_people_data (soup : Soup) : List (String × String) :=
  match soup.peopleSection with
  | none => []
  | some ps =>
    (match ps.assigneeVal with
     | some a => [("Assignee", a)]
     | none => []) ++
    (match ps.reporterVal with
     | some r => [("Reporter", r)]
     | none => [])

/-- The `date_fields` table of `extract_date_data`. -/
def dateFields : List (String × String) :=
  [("Created", "created-val"), ("Updated", "updated-val"),
   ("Resolved", "resolutiondate-val")]

/-- `extract_date_data(soup)`: a field is added only when both the span
and its `<time>` child exist. -/
def extract_date_data (soup : Soup) : List (String × String) :=
  extractAssoc (fun spanId => (soup.dateSpan spanId).bind id) dateFields []

/-- `extract_description_data(soup)`: the cleaned description text, or
`""` when the description div is absent. -/
def extract_description_data (soup : Soup) : String :=
  match soup.descriptionDiv with
  | some txt => clean_text txt
  | none => ""

/-- The `for a in details.find_all("a")` scan for the first anchor whose
class list contains `"user-hover"` (anchors without a class attribute are
skipped). -/
def findUserHoverAnchor : List Anchor → Option Anchor
  | [] => none
  | a :: rest =>
    match a.classes with
    | some cls => if "user-hover" ∈ cls then some a else findUserHoverAnchor rest
    | none => findUserHoverAnchor rest

/-- One comment record as appended by `extract_comments`. -/
structure Cmt where
  commenter : String
  comment : String
deriving DecidableEq

/-- The body of the `for div in comment_divs` loop of `extract_comments`:
`none` models the two `continue` branches (no `concise` div, or no
`action-details` div inside it); otherwise the commenter is the
`user-hover` anchor's text, defaulting to `"Unknown"`. -/
def commentFromDiv (d : CommentDiv) : Option Cmt :=
  match d.concise with
  | none => none
  | some con =>
    match con.details with
    | none => none
    | some det =>
      let commenter :=
        match findUserHoverAnchor det.anchors with
        | some a => a.text
        | none => "Unknown"
      some ⟨clean_text commenter, clean_text det.text⟩

/-- `extract_comments(soup)`: empty without the container, otherwise the
loop over the comment divs, skipping the `continue` cases. -/
def extract_comments (soup : Soup) : List Cmt :=
  match soup.commentsContainer with
  | none => []
  | some divs => divs.filterMap commentFromDiv

/-- The f-string `f"{c['commenter']}: {c['comment']}"` for one comment. -/
def commentSeg (c : Cmt) : String :=
  c.commenter ++ ": " ++ c.comment

/-- The comment-flattening step of `process_issue`:
`" | ".join(f"{c['commenter']}: {c['comment']}" for c in comments)` when
the list is nonempty, `""` otherwise. -/
def formatComments (cs : List Cmt) : String :=
  if cs.isEmpty then ""
  else pyJoinBar (cs.map commentSeg)

/-- `process_issue(url, driver)` given the parsed page: the dictionary
starts as `{"URL": url}`, is updated with details, people and dates, then
`Description` and `Comments` are set.  All keys involved are pairwise
distinct string literals, so every dictionary update is an append. -/
def process_issue (url : String) (soup : Soup) : List (String × String) :=
  [("URL", url)] ++ extract_details soup ++ extract_people_data soup ++
    extract_date_data soup ++
    [("Description", extract_description_data soup)] ++
    [("Comments", formatComments (extract_comments soup))]

/-- The href normalisation in `crawl_issue_list`: relative links get the
site prefix. -/
def normalizeHref (href : String) : String :=
  if href.startsWith "/" then "https://issues.apache.org" ++ href else href

/-- `if href not in issue_urls: issue_urls.append(href)` — append with
exact-string-equality deduplication. -/
def insertRef (acc : List String) (u : String) : List String :=
  if u ∈ acc then acc else acc ++ [u]

/-- One iteration of the index loop as seen by the crawler: the hrefs of
the `a.splitview-issue-link` anchors of each `li` of `ol.issue-list`
(`none` for an `li` without such an anchor; the whole list is `none` when
the `ol` is absent), and the outcome of locating and clicking the
`a.nav-next` control (`Except.error` models any raised exception,
including the wait timeout when the control is absent). -/
structure PageStep where
  issueList : Option (List (Option String))
  next : Except String Unit

/-- The page-scraping half of the loop body of `crawl_issue_list`. -/
def scrapePage (acc : List String) (step : PageStep) : List String :=
  match step.issueList with
  | none => acc
  | some lis =>
    lis.foldl (fun a oh =>
      match oh with
      | some href => insertRef a (normalizeHref href)
      | none => a) acc

/-- The `while True` loop of `crawl_issue_list`: scrape the current page,
then try to click "Next"; any exception breaks the loop, and the
collected URLs are returned. -/
def crawlLoop (acc : List String) : List PageStep → List String
  | [] => acc
  | step :: rest =>
    match step.next with
    | Except.ok _ => crawlLoop (scrapePage acc step) rest
    | Except.error _ => scrapePage acc step

/-- `crawl_issue_list(driver, start_url)` as a function of the trace of
index pages the driver serves. -/
def crawl_issue_list (trace : List PageStep) : List String :=
  crawlLoop [] trace

/-- Modelled from the spec: first-seen deduplication — keep the first
occurrence of each element, in order of first appearance
("append new, not-yet-seen links to the result in the order
encountered"). -/
def firstSeenDedup : List String → List String
  | [] => []
  | x :: xs => x :: (firstSeenDedup xs).filter (fun y => decide (y ≠ x))

/-- The steps the loop actually scrapes: every step up to and including
the first whose "Next" click fails. -/
def visitedSteps : List PageStep → List PageStep
  | [] => []
  | step :: rest =>
    match step.next with
    | Except.ok _ => step :: visitedSteps rest
    | Except.error _ => [step]

/-- The normalised URLs one scraped page exposes, in document order. -/
def stepUrls (step : PageStep) : List String :=
  match step.issueList with
  | none => []
  | some lis => (lis.filterMap id).map normalizeHref

/-- All normalised URLs seen during a run, page by page in visit order. -/
def traceUrls (trace : List PageStep) : List String :=
  ((visitedSteps trace).map stepUrls).flatten

/-- Folding `insertRef` over a flat list of URLs. -/
def foldIns (acc : List String) (l : List String) : List String :=
  l.foldl insertRef acc

/-- The per-reference loop of `main` in `Crawler/crawler.py`: each
reference's fetch-and-extract is an `Except` (an error models a raised
exception — e.g. a transport-level failure inside `process_issue`'s
`driver.get`); the loop appends records in order and a raised exception
propagates out of the loop — there is no `try`/`except` around
`process_issue` in `main`. -/
def mainLoop : List (Except String (List (String × String))) →
    Except String (List (List (String × String)))
  | [] => Except.ok []
  | Except.error e :: _ => Except.error e
  | Except.ok r :: rest => (mainLoop rest).map (fun rs => r :: rs)

/-- An HTTP response for the languages endpoint in `Kaggle/script.py`:
status code and the parsed `list(response.json().items())`. -/
structure LangResp where
  status : Nat
  items : List (String × Nat)

/-- `get_repo_languages(owner, repo)` from `Kaggle/script.py`: raises
`Exception(f"Error fetching languages: {status}")` unless the status is
200; its caller in `__main__` does not catch the exception. -/
def get_repo_languages (resp : LangResp) : Except String (List (String × Nat)) :=
  if resp.status ≠ 200 then
    Except.error ("Error fetching languages: " ++ toString resp.status)
  else Except.ok resp.items

/-- Numeric value of the digit group, as `int(match.group(1))`. -/
def digitsVal (ds : List Char) : Nat :=
  ds.foldl (fun n c => 10 * n + (c.toNat - '0'.toNat)) 0

/-- Attempt to match the pattern `page=(\d+)>; rel="last"` at the start of
the character list: the literal `page=`, one or more digits, then the
literal `>; rel="last"`.  The digits are taken greedily, which agrees with
the regex engine here: a shorter digit group would be followed by another
digit, never by the required `>`. -/
def matchPageLast (l : List Char) : Option Nat :=
  if "page=".data.isPrefixOf l then
    let rest := l.drop 5
    let ds := rest.takeWhile Char.isDigit
    if ds.isEmpty then none
    else if ">; rel=\"last\"".data.isPrefixOf (rest.drop ds.length) then
      some (digitsVal ds)
    else none
  else none

/-- `re.search(r'page=(\d+)>; rel="last"', header)`: try each position
from the left, returning the leftmost match. -/
def searchPageLast : List Char → Option Nat
  | [] => none
  | c :: rest =>
    match matchPageLast (c :: rest) with
    | some n => some n
    | none => searchPageLast rest

/-- A parsed JSON body, as far as the pagination code inspects it: a JSON
array (`isinstance(data, list)` holds) or another object, each with its
Python `len`. -/
inductive PyObj
  | plist (len : Nat)
  | pother (len : Nat)
deriving DecidableEq

/-- Python `len(data)`. -/
def pyLen : PyObj → Nat
  | .plist n => n
  | .pother n => n

/-- Python `isinstance(data, list)`. -/
def isPyList : PyObj → Bool
  | .plist _ => true
  | .pother _ => false

/-- An HTTP response as the pagination code inspects it: status code,
optional `Link` header, and the parsed body (`none` when `.json()`
raises `ValueError`). -/
structure Resp where
  status : Nat
  link : Option (List Char)
  body : Option PyObj

/-- The per-endpoint body of the loop in `get_paged_info` from
`Kaggle/script.py`: 0 on status 204 or an unparsable body; with a `Link`
header, the matched last page number, falling back to `len(data)`;
without one, `len(data)` for a list body and 0 otherwise. -/
def pagedCount (resp : Resp) : Nat :=
  if resp.status = 204 then 0
  else
    match resp.body with
    | none => 0
    | some data =>
      match resp.link with
      | some lh =>
        match searchPageLast lh with
        | some n => n
        | none => pyLen data
      | none => if isPyList data then pyLen data else 0

/-- `get_paged_info(owner, repo, endpoints)`: one `(endpoint, count)`
pair per endpoint response, in order. -/
def get_paged_info (resps : List (String × Resp)) : List (String × Nat) :=
  resps.map (fun er => (er.1, pagedCount er.2))

/-- `get_number_commits(owner, repo)` from `script.py`: with a `Link`
header it returns `re.search(...).group(1)` — `None.group(1)` raises
`AttributeError` when there is no match (the group, a digit string, is
modelled by its numeric value); without a `Link` header it returns
`len(commits.json())`, which raises if the body does not parse. -/
def get_number_commits (resp : Resp) : Except String Nat :=
  match resp.link with
  | some lh =>
    match searchPageLast lh with
    | some n => Except.ok n
    | none => Except.error "AttributeError"
  | none =>
    match resp.body with
    | some data => Except.ok (pyLen data)
    | none => Except.error "JSONDecodeError"

/-- Fixture: a detail page where `#type-val` exists with text `"Bug"`, the
people section exists but contains neither span, and everything else is
absent. -/
def soupTypeOnly : Soup where
  selectOne := fun sel => if sel = "#type-val" then some "Bug" else none
  peopleSection := some ⟨none, none⟩
  dateSpan := fun _ => none
  descriptionDiv := none
  commentsContainer := none

/-- Fixture: a detail page where every queried element is absent. -/
def soupEmpty : Soup where
  selectOne := fun _ => none
  peopleSection := none
  dateSpan := fun _ => none
  descriptionDiv := none
  commentsContainer := none

/-- Fixture: a detail page with a single comment whose `action-details`
div has no `user-hover` anchor and text `"hi"`. -/
def soupUnknownComment : Soup where
  selectOne := fun _ => none
  peopleSection := none
  dateSpan := fun _ => none
  descriptionDiv := none
  commentsContainer := some [⟨some ⟨some ⟨[⟨none, "x"⟩, ⟨some ["foo"], "y"⟩], "hi"⟩⟩⟩]

/-- Fixture: a detail page with a single comment whose text contains the
delimiter `" | "`. -/
def soupBarComment : Soup where
  selectOne := fun _ => none
  peopleSection := none
  dateSpan := fun _ => none
  descriptionDiv := none
  commentsContainer := some [⟨some ⟨some ⟨[], "x | y"⟩⟩⟩]

lemma noTwoAdjWs_tail {c : Char} {l : List Char}
    (h : noTwoAdjWs (c :: l) = true) : noTwoAdjWs l = true := by
  cases l with
  | nil => rfl
  | cons d t => exact (Bool.and_eq_true _ _ |>.mp h).2

lemma noTwoAdjWs_cons_of_not {c : Char} {l : List Char}
    (hc : pyIsSpace c = false) (h : noTwoAdjWs l = true) :
    noTwoAdjWs (c :: l) = true := by
  cases l with
  | nil => rfl
  | cons d t => simp [noTwoAdjWs, hc, h]

lemma squeezeWs_cons_of_not {c : Char} {l : List Char} (hc : pyIsSpace c = false) :
    squeezeWs (c :: l) = c :: squeezeWs l := by
  simp [squeezeWs, hc]

lemma wsOnlySpace_tail {c : Char} {l : List Char}
    (h : wsOnlySpace (c :: l) = true) : wsOnlySpace l = true := by
  simp only [wsOnlySpace, List.all_cons, Bool.and_eq_true] at h
  exact h.2

lemma noTwoAdjWs_squeezeWs (l : List Char) : noTwoAdjWs (squeezeWs l) = true := by
  induction l with
  | nil => rfl
  | cons c rest ih =>
    by_cases hc : pyIsSpace c = true
    · cases rest with
      | nil => simp [squeezeWs, hc]; rfl
      | cons d t =>
        by_cases hd : pyIsSpace d = true
        · simpa [squeezeWs, hc, hd] using ih
        · have hrw : squeezeWs (c :: d :: t) = ' ' :: squeezeWs (d :: t) := by
            simp [squeezeWs, hc, hd]
          have hdt : squeezeWs (d :: t) = d :: squeezeWs t := by
            simp [squeezeWs, hd]
          rw [hrw, hdt]
          have := ih
          rw [hdt] at this
          simp [noTwoAdjWs, hd, this]
    · rw [squeezeWs_cons_of_not (by simpa using hc)]
      exact noTwoAdjWs_cons_of_not (by simpa using hc) ih

lemma wsOnlySpace_squeezeWs (l : List Char) : wsOnlySpace (squeezeWs l) = true := by
  induction l with
  | nil => rfl
  | cons c rest ih =>
    by_cases hc : pyIsSpace c = true
    · cases rest with
      | nil => simp [squeezeWs, hc, wsOnlySpace]
      | cons d t =>
        by_cases hd : pyIsSpace d = true
        · simpa [squeezeWs, hc, hd] using ih
        · have hrw : squeezeWs (c :: d :: t) = ' ' :: squeezeWs (d :: t) := by
            simp [squeezeWs, hc, hd]
          rw [hrw]
          simp only [wsOnlySpace, List.all_cons, Bool.and_eq_true]
          exact ⟨by simp, by simpa [wsOnlySpace] using ih⟩
    · rw [squeezeWs_cons_of_not (by simpa using hc)]
      simp only [wsOnlySpace, List.all_cons, Bool.and_eq_true]
      exact ⟨by simp [hc], by simpa [wsOnlySpace] using ih⟩

lemma squeezeWs_eq_self {l : List Char}
    (h1 : noTwoAdjWs l = true) (h2 : wsOnlySpace l = true) :
    squeezeWs l = l := by
  induction l with
  | nil => rfl
  | cons c rest ih =>
    by_cases hc : pyIsSpace c = true
    · have hcsp : c = ' ' := by
        simp only [wsOnlySpace, List.all_cons, Bool.and_eq_true] at h2
        have := h2.1
        simp [hc] at this
        exact this
      cases rest with
      | nil => simp [squeezeWs, hc, hcsp]
      | cons d t =>
        have hd : pyIsSpace d = false := by
          simp only [noTwoAdjWs, Bool.and_eq_true] at h1
          have := h1.1
          simpa [hc] using this
        have : squeezeWs (c :: d :: t) = ' ' :: squeezeWs (d :: t) := by
          simp [squeezeWs, hc, hd]
        rw [this, ih (noTwoAdjWs_tail h1) (wsOnlySpace_tail h2), hcsp]
    · rw [squeezeWs_cons_of_not (by simpa using hc),
        ih (noTwoAdjWs_tail h1) (wsOnlySpace_tail h2)]

lemma noTwoAdjWs_of_append_right {t l : List Char}
    (h : noTwoAdjWs (t ++ l) = true) : noTwoAdjWs l = true := by
  induction t with
  | nil => exact h
  | cons x t ih => exact ih (noTwoAdjWs_tail h)

lemma noTwoAdjWs_of_append_left {l t : List Char}
    (h : noTwoAdjWs (l ++ t) = true) : noTwoAdjWs l = true := by
  induction l with
  | nil => rfl
  | cons x l ih =>
    cases l with
    | nil => rfl
    | cons y r =>
      simp only [List.cons_append, noTwoAdjWs, Bool.and_eq_true] at h ⊢
      exact ⟨h.1, by simpa [noTwoAdjWs] using ih (by simpa [noTwoAdjWs] using h.2)⟩

lemma wsOnlySpace_of_sublist {l₁ l₂ : List Char}
    (hs : l₁.Sublist l₂) (h : wsOnlySpace l₂ = true) : wsOnlySpace l₁ = true := by
  simp only [wsOnlySpace, List.all_eq_true] at h ⊢
  exact fun c hc => h c (hs.subset hc)

lemma noLeadingWs_dropWhile (l : List Char) :
    noLeadingWs (l.dropWhile pyIsSpace) = true := by
  induction l with
  | nil => rfl
  | cons c rest ih =>
    by_cases hc : pyIsSpace c = true
    · simpa [List.dropWhile_cons, hc] using ih
    · simp [List.dropWhile_cons, hc, noLeadingWs]

lemma noLeadingWs_of_prefix {l₁ l₂ : List Char}
    (hp : l₁ <+: l₂) (h : noLeadingWs l₂ = true) : noLeadingWs l₁ = true := by
  cases l₁ with
  | nil => rfl
  | cons c t =>
    obtain ⟨r, hr⟩ := hp
    subst hr
    simpa [noLeadingWs] using h

lemma noTrailingWs_rdropWhile (l : List Char) :
    noTrailingWs (List.rdropWhile pyIsSpace l) = true := by
  simp only [noTrailingWs, List.rdropWhile, List.reverse_reverse]
  exact noLeadingWs_dropWhile l.reverse

lemma dropWhile_eq_self_of_noLeading {l : List Char}
    (h : noLeadingWs l = true) : l.dropWhile pyIsSpace = l := by
  cases l with
  | nil => rfl
  | cons c t =>
    simp only [noLeadingWs, Bool.not_eq_true'] at h
    simp [List.dropWhile_cons, h]

lemma rdropWhile_eq_self_of_noTrailing {l : List Char}
    (h : noTrailingWs l = true) : List.rdropWhile pyIsSpace l = l := by
  simp only [noTrailingWs] at h
  simp only [List.rdropWhile]
  rw [dropWhile_eq_self_of_noLeading h, List.reverse_reverse]

lemma pyStrip_props (l : List Char) :
    noLeadingWs (pyStrip l) = true ∧ noTrailingWs (pyStrip l) = true := by
  constructor
  · exact noLeadingWs_of_prefix (List.rdropWhile_prefix _ _) (noLeadingWs_dropWhile l)
  · exact noTrailingWs_rdropWhile _

lemma noTwoAdjWs_pyStrip {l : List Char}
    (h : noTwoAdjWs l = true) : noTwoAdjWs (pyStrip l) = true := by
  have h1 : noTwoAdjWs (l.dropWhile pyIsSpace) = true := by
    have hsuf : l.dropWhile pyIsSpace <:+ l := List.dropWhile_suffix pyIsSpace
    obtain ⟨t, ht⟩ := hsuf
    exact noTwoAdjWs_of_append_right (ht ▸ h)
  obtain ⟨t, ht⟩ := List.rdropWhile_prefix pyIsSpace (l.dropWhile pyIsSpace)
  exact noTwoAdjWs_of_append_left (ht ▸ h1)

lemma wsOnlySpace_pyStrip {l : List Char}
    (h : wsOnlySpace l = true) : wsOnlySpace (pyStrip l) = true := by
  have h1 : wsOnlySpace (l.dropWhile pyIsSpace) = true :=
    wsOnlySpace_of_sublist (List.dropWhile_suffix _).sublist h
  exact wsOnlySpace_of_sublist (List.rdropWhile_prefix _ _).sublist h1

lemma clean_text_data (s : String) :
    (clean_text s).data = pyStrip (squeezeWs s.data) := rfl

lemma hasBar_cons_false {c : Char} {l : List Char} (h : hasBar (c :: l) = false) :
    barDelim.isPrefixOf (c :: l) = false ∧ hasBar l = false := by
  simpa [hasBar] using h

lemma splitBarF_irrel : ∀ (f₁ f₂ : Nat) (l : List Char),
    l.length ≤ f₁ → l.length ≤ f₂ → splitBarF f₁ l = splitBarF f₂ l := by
  intro f₁
  induction f₁ with
  | zero =>
    intro f₂ l h₁ _
    have : l = [] := List.length_eq_zero.mp (Nat.le_zero.mp h₁)
    subst this
    cases f₂ <;> rfl
  | succ f ih =>
    intro f₂ l h₁ h₂
    cases l with
    | nil => cases f₂ <;> rfl
    | cons c rest =>
      have hr : rest.length ≤ f := by simpa using h₁
      cases f₂ with
      | zero => simp at h₂
      | succ g =>
        have hg : rest.length ≤ g := by simpa using h₂
        by_cases hpf : barDelim.isPrefixOf (c :: rest) = true
        · have hdrop : (rest.drop 2).length ≤ rest.length := by
            rw [List.length_drop]
            omega
          have hd : (rest.drop 2).length ≤ f := le_trans hdrop hr
          have hd' : (rest.drop 2).length ≤ g := le_trans hdrop hg
          simp [splitBarF, hpf, ih g _ hd hd']
        · simp [splitBarF, hpf, ih g _ hr hg]

lemma splitBarF_no_bar : ∀ (s : List Char) (f : Nat),
    s.length ≤ f → hasBar s = false → splitBarF f s = [s] := by
  intro s
  induction s with
  | nil =>
    intro f _ _
    cases f <;> rfl
  | cons c rest ih =>
    intro f hf hbar
    cases f with
    | zero => simp at hf
    | succ g =>
      obtain ⟨hpf, htl⟩ := hasBar_cons_false hbar
      have : splitBarF g rest = [rest] := ih g (by simpa using hf) htl
      simp [splitBarF, hpf, this, consHead]

lemma splitBarF_cut : ∀ (s : List Char) (f : Nat) (t : List Char),
    s.length + 3 + t.length ≤ f →
    hasBar s = false → ([' ', '|'] <:+ s → False) →
    splitBarF f (s ++ (barDelim ++ t)) = s :: splitBarF t.length t := by
  intro s
  induction s with
  | nil =>
    intro f t hf _ _
    cases f with
    | zero => simp at hf
    | succ g =>
      have hpf : barDelim.isPrefixOf (' ' :: '|' :: ' ' :: t) = true := by
        simp [barDelim, List.isPrefixOf]
      have hlen : t.length ≤ g := by omega
      simp only [List.nil_append, barDelim, List.cons_append, List.nil_append]
      simp only [splitBarF, hpf, if_true]
      rw [show (('|' :: ' ' :: t).drop 2) = t from rfl,
        splitBarF_irrel g t.length t hlen (le_refl _)]
  | cons c s' ih =>
    intro f t hf hbar hsuf
    cases f with
    | zero => simp at hf
    | succ g =>
      have hpf : barDelim.isPrefixOf (c :: (s' ++ (barDelim ++ t))) = false := by
        by_contra hcon
        have hpre : barDelim <+: c :: (s' ++ (barDelim ++ t)) := by
          exact List.isPrefixOf_iff_prefix.mp (Bool.of_not_eq_false hcon)
        cases s' with
        | nil =>
          -- the string is `c :: ' ' :: '|' :: ' ' :: t`; a prefix match would
          -- force `'|' = ' '`, impossible
          simp only [List.nil_append, barDelim, List.cons_append,
            List.cons_prefix_cons] at hpre
          obtain ⟨_, h2, _⟩ := hpre
          exact absurd h2 (by decide)
        | cons d s'' =>
          cases s'' with
          | nil =>
            -- the string is `c :: d :: ' ' :: '|' :: ' ' :: t`; a prefix match
            -- forces `c = ' '` and `d = '|'`, i.e. `s` ends with `" |"`.
            simp only [List.cons_append, List.nil_append, barDelim,
              List.cons_prefix_cons] at hpre
            obtain ⟨hc, hd, _⟩ := hpre
            refine hsuf ?_
            rw [← hc, ← hd]
          | cons e s''' =>
            -- the first three characters all lie inside `c :: s'`, so the
            -- delimiter would occur inside `s`, contradicting `hasBar`.
            simp only [List.cons_append, barDelim, List.cons_prefix_cons] at hpre
            obtain ⟨hc, hd, he, _⟩ := hpre
            have : hasBar (c :: d :: e :: s''') = true := by
              rw [← hc, ← hd, ← he]
              simp [hasBar, List.isPrefixOf, barDelim]
            rw [this] at hbar
            exact absurd hbar (by simp)
      obtain ⟨_, htl⟩ := hasBar_cons_false hbar
      have hsuf' : [' ', '|'] <:+ s' → False := fun h =>
        hsuf (h.trans (List.suffix_cons c s'))
      have hf' : s'.length + 3 + t.length ≤ g := by
        simp only [List.length_cons] at hf
        omega
      have hrec := ih g t hf' htl hsuf'
      have hstep : splitBarF (g + 1) ((c :: s') ++ (barDelim ++ t)) =
          consHead c (splitBarF g (s' ++ (barDelim ++ t))) := by
        show splitBarF (g + 1) (c :: (s' ++ (barDelim ++ t))) = _
        simp [splitBarF, hpf]
      rw [hstep, hrec]
      rfl

/-- Splitting on `" | "` inverts joining with `" | "`, provided each piece
neither contains the delimiter nor ends with `" |"`. -/
lemma splitBar_joinBar : ∀ segs : List (List Char), segs ≠ [] →
    (∀ s ∈ segs, hasBar s = false ∧ ([' ', '|'] <:+ s → False)) →
    splitBar (joinBar segs) = segs := by
  intro segs
  induction segs with
  | nil => intro h; exact absurd rfl h
  | cons s rest ih =>
    intro _ hok
    cases rest with
    | nil =>
      show splitBarF (joinBar [s]).length (joinBar [s]) = [s]
      have := hok s (by simp)
      exact splitBarF_no_bar s _ (le_refl _) this.1
    | cons t rest' =>
      have hs := hok s (by simp)
      have hjoin : joinBar (s :: t :: rest') = s ++ (barDelim ++ joinBar (t :: rest')) := by
        simp [joinBar, List.append_assoc]
      show splitBarF (joinBar (s :: t :: rest')).length (joinBar (s :: t :: rest')) = _
      rw [hjoin]
      have hlen : (s ++ (barDelim ++ joinBar (t :: rest'))).length =
          s.length + 3 + (joinBar (t :: rest')).length := by
        simp [barDelim]
        omega
      rw [splitBarF_cut s _ (joinBar (t :: rest')) (le_of_eq hlen.symm) hs.1 hs.2]
      have := ih (by simp) (fun x hx => hok x (by simp [hx]))
      rw [show splitBarF (joinBar (t :: rest')).length (joinBar (t :: rest')) =
        splitBar (joinBar (t :: rest')) from rfl, this]

lemma pyJoinBar_data : ∀ l : List String,
    (pyJoinBar l).data = joinBar (l.map String.data) := by
  intro l
  induction l with
  | nil => rfl
  | cons s rest ih =>
    cases rest with
    | nil => rfl
    | cons t rest' =>
      simp only [pyJoinBar, joinBar, List.map_cons, String.data_append, ih]
      rfl

lemma foldl_option_eq_foldIns (lis : List (Option String)) : ∀ acc : List String,
    lis.foldl (fun a oh =>
      match oh with
      | some href => insertRef a (normalizeHref href)
      | none => a) acc = foldIns acc ((lis.filterMap id).map normalizeHref) := by
  induction lis with
  | nil => intro acc; rfl
  | cons oh rest ih =>
    intro acc
    cases oh with
    | none => simpa [List.filterMap_cons] using ih acc
    | some href => simpa [List.filterMap_cons, foldIns] using ih (insertRef acc (normalizeHref href))

lemma scrapePage_eq_foldIns (acc : List String) (step : PageStep) :
    scrapePage acc step = foldIns acc (stepUrls step) := by
  cases h : step.issueList with
  | none => simp [scrapePage, stepUrls, h, foldIns]
  | some lis =>
    simp only [scrapePage, stepUrls, h]
    exact foldl_option_eq_foldIns lis acc

lemma foldIns_append (acc l₁ l₂ : List String) :
    foldIns acc (l₁ ++ l₂) = foldIns (foldIns acc l₁) l₂ :=
  List.foldl_append insertRef acc l₁ l₂

lemma crawlLoop_eq_foldIns : ∀ (trace : List PageStep) (acc : List String),
    crawlLoop acc trace = foldIns acc (((visitedSteps trace).map stepUrls).flatten) := by
  intro trace
  induction trace with
  | nil => intro acc; rfl
  | cons step rest ih =>
    intro acc
    cases hn : step.next with
    | ok u =>
      simp only [crawlLoop, hn, visitedSteps, List.map_cons, List.flatten_cons]
      rw [ih (scrapePage acc step), scrapePage_eq_foldIns, foldIns_append]
    | error e =>
      simp only [crawlLoop, hn, visitedSteps, List.map_cons, List.map_nil,
        List.flatten_cons, List.flatten_nil, List.append_nil]
      exact scrapePage_eq_foldIns acc step

lemma firstSeenDedup_filter (q : String → Bool) :
    ∀ m : List String, firstSeenDedup (m.filter q) = (firstSeenDedup m).filter q := by
  intro m
  induction m with
  | nil => rfl
  | cons y m' ih =>
    by_cases hq : q y = true
    · rw [List.filter_cons_of_pos hq]
      simp only [firstSeenDedup, ih, List.filter_cons_of_pos hq, List.filter_filter]
      congr 1
      apply List.filter_congr
      intro a _
      exact Bool.and_comm _ _
    · have hq' : q y = false := by simpa using hq
      rw [List.filter_cons_of_neg (by simp [hq'])]
      simp only [firstSeenDedup, ih, List.filter_cons_of_neg (by simp [hq'] : ¬q y = true),
        List.filter_filter]
      apply (List.filter_congr ?_).symm
      intro a _
      by_cases ha : a = y
      · subst ha; simp [hq']
      · simp [ha]

lemma foldIns_eq_firstSeenDedup : ∀ (l acc : List String),
    foldIns acc l = acc ++ firstSeenDedup (l.filter (fun y => decide (y ∉ acc))) := by
  intro l
  induction l with
  | nil => intro acc; simp [foldIns, firstSeenDedup]
  | cons x xs ih =>
    intro acc
    by_cases hx : x ∈ acc
    · have hstep : foldIns acc (x :: xs) = foldIns acc xs := by
        simp [foldIns, insertRef, hx]
      rw [hstep, ih acc, List.filter_cons_of_neg (by simp [hx])]
    · have hstep : foldIns acc (x :: xs) = foldIns (acc ++ [x]) xs := by
        simp [foldIns, insertRef, hx]
      rw [hstep, ih (acc ++ [x]), List.filter_cons_of_pos (by simp [hx])]
      have hpt : (fun y => decide (y ∉ acc ++ [x])) =
          fun y => decide (y ≠ x) && decide (y ∉ acc) := by
        funext y
        by_cases h1 : y ∈ acc <;> by_cases h2 : y = x <;>
          simp [h1, h2, List.mem_append]
      rw [hpt, ← List.filter_filter]
      rw [firstSeenDedup_filter (fun y => decide (y ≠ x))]
      simp [firstSeenDedup, List.append_assoc]

lemma firstSeenDedup_nodup : ∀ l : List String, (firstSeenDedup l).Nodup := by
  intro l
  induction l with
  | nil => exact List.nodup_nil
  | cons x xs ih =>
    simp only [firstSeenDedup, List.nodup_cons]
    exact ⟨by simp, ih.filter _⟩

lemma mem_firstSeenDedup : ∀ (l : List String) (u : String),
    u ∈ firstSeenDedup l ↔ u ∈ l := by
  intro l
  induction l with
  | nil => intro u; rfl
  | cons x xs ih =>
    intro u
    by_cases hu : u = x
    · subst hu; simp [firstSeenDedup]
    · simp [firstSeenDedup, hu, ih]

lemma crawl_issue_list_eq (trace : List PageStep) :
    crawl_issue_list trace = firstSeenDedup (traceUrls trace) := by
  show crawlLoop [] trace = _
  rw [crawlLoop_eq_foldIns trace [], foldIns_eq_firstSeenDedup]
  simp only [List.nil_append]
  congr 1
  apply List.filter_eq_self.mpr
  intro a _
  simp

lemma crawlLoop_break : ∀ (pre : List PageStep) (acc : List String)
    (step : PageStep) (post : List PageStep) (e : String),
    (∀ s ∈ pre, s.next = Except.ok ()) → step.next = Except.error e →
    crawlLoop acc (pre ++ step :: post) = crawlLoop acc (pre ++ [step]) := by
  intro pre
  induction pre with
  | nil =>
    intro acc step post e _ hstep
    simp [crawlLoop, hstep]
  | cons s pre' ih =>
    intro acc step post e hpre hstep
    have hs : s.next = Except.ok () := hpre s (by simp)
    simp only [List.cons_append, crawlLoop, hs]
    exact ih _ step post e (fun x hx => hpre x (by simp [hx])) hstep

lemma extractAssoc_eq (f : String → Option String) :
    ∀ (fs : List (String × String)) (init : List (String × String)),
    extractAssoc f fs init =
      init ++ fs.filterMap (fun ks => (f ks.2).map (fun t => (ks.1, t))) := by
  intro fs
  induction fs with
  | nil => intro init; simp [extractAssoc]
  | cons ks rest ih =>
    intro init
    cases hf : f ks.2 with
    | some t =>
      have hstep : extractAssoc f (ks :: rest) init =
          extractAssoc f rest (init ++ [(ks.1, t)]) := by
        simp [extractAssoc, hf]
      rw [hstep, ih]
      simp [List.filterMap_cons, hf]
    | none =>
      have hstep : extractAssoc f (ks :: rest) init = extractAssoc f rest init := by
        simp [extractAssoc, hf]
      rw [hstep, ih]
      simp [List.filterMap_cons, hf]

lemma lookup_eq_none_of_keys : ∀ (l : List (String × String)) (k : String),
    (∀ p ∈ l, p.1 ≠ k) → List.lookup k l = none := by
  intro l k
  induction l with
  | nil => intro _; rfl
  | cons p rest ih =>
    intro h
    obtain ⟨a, b⟩ := p
    have ha : a ≠ k := h (a, b) (by simp)
    have hne : (k == a) = false := by
      simp [Ne.symm ha]
    simp only [List.lookup, hne]
    exact ih (fun q hq => h q (by simp [hq]))

lemma lookup_append_right : ∀ (l₁ l₂ : List (String × String)) (k : String),
    List.lookup k l₁ = none → List.lookup k (l₁ ++ l₂) = List.lookup k l₂ := by
  intro l₁
  induction l₁ with
  | nil => intro l₂ k _; rfl
  | cons p rest ih =>
    intro l₂ k h
    obtain ⟨a, b⟩ := p
    by_cases hk : (k == a) = true
    · simp [List.lookup, hk] at h
    · have hk' : (k == a) = false := by simpa using hk
      simp only [List.cons_append, List.lookup, hk'] at h ⊢
      exact ih l₂ k h

lemma lookup_append_left : ∀ (l₁ l₂ : List (String × String)) (k : String) (v : String),
    List.lookup k l₁ = some v → List.lookup k (l₁ ++ l₂) = some v := by
  intro l₁
  induction l₁ with
  | nil => intro l₂ k v h; simp [List.lookup] at h
  | cons p rest ih =>
    intro l₂ k v h
    obtain ⟨a, b⟩ := p
    by_cases hk : (k == a) = true
    · simp only [List.lookup, hk] at h
      simp only [List.cons_append, List.lookup, hk]
      exact h
    · have hk' : (k == a) = false := by simpa using hk
      simp only [List.lookup, hk'] at h
      simp only [List.cons_append, List.lookup, hk']
      exact ih l₂ k v h

lemma lookup_filterMap_assoc (f : String → Option String) :
    ∀ (fs : List (String × String)) (k sel : String),
    (fs.map Prod.fst).Nodup → (k, sel) ∈ fs →
    List.lookup k (fs.filterMap (fun ks => (f ks.2).map (fun t => (ks.1, t)))) = f sel := by
  intro fs
  induction fs with
  | nil => intro k sel _ h; simp at h
  | cons ks rest ih =>
    intro k sel hnd hmem
    obtain ⟨a, s⟩ := ks
    simp only [List.map_cons, List.nodup_cons] at hnd
    rcases List.mem_cons.mp hmem with heq | hrest
    · obtain ⟨hk, hs⟩ := Prod.mk.injEq .. ▸ heq
      subst hk; subst hs
      cases hf : f sel with
      | some t =>
        simp [List.filterMap_cons, hf, List.lookup]
      | none =>
        simp only [List.filterMap_cons, hf]
        apply lookup_eq_none_of_keys
        intro p hp
        obtain ⟨ks', hks', hsome⟩ := List.mem_filterMap.mp hp
        cases hf' : f ks'.2 with
        | none => rw [hf'] at hsome; simp at hsome
        | some t' =>
          rw [hf'] at hsome
          simp only [Option.map_some'] at hsome
          injection hsome with hps
          subst hps
          intro hcon
          have hcon' : ks'.1 = k := hcon
          have hmem' : ks'.1 ∈ List.map Prod.fst rest :=
            List.mem_map_of_mem Prod.fst hks'
          exact hnd.1 (hcon' ▸ hmem')
    · have hk : k ≠ a := by
        intro h
        subst h
        exact hnd.1 (List.mem_map.mpr ⟨(k, sel), hrest, rfl⟩)
      have hkb : (k == a) = false := by simp [hk]
      cases hf : f s with
      | some t =>
        simp only [List.filterMap_cons, hf, Option.map_some', List.lookup, hkb]
        exact ih k sel hnd.2 hrest
      | none =>
        simp only [List.filterMap_cons, hf]
        exact ih k sel hnd.2 hrest

lemma extract_details_eq (soup : Soup) :
    extract_details soup = (detailFields ++ customFields).filterMap
      (fun ks => (soup.selectOne ks.2).map (fun t => (ks.1, t))) := by
  show extractAssoc soup.selectOne customFields
      (extractAssoc soup.selectOne detailFields []) = _
  rw [extractAssoc_eq, extractAssoc_eq, List.filterMap_append]
  simp

lemma extract_date_data_eq (soup : Soup) :
    extract_date_data soup = dateFields.filterMap
      (fun ks => (((soup.dateSpan ks.2).bind id)).map (fun t => (ks.1, t))) := by
  show extractAssoc (fun spanId => (soup.dateSpan spanId).bind id) dateFields [] = _
  rw [extractAssoc_eq]
  simp

lemma fst_mem_of_mem_filterMap (F : String × String → Option String) :
    ∀ (fs : List (String × String)) (p : String × String),
    p ∈ fs.filterMap (fun ks => (F ks).map (fun t => (ks.1, t))) →
    p.1 ∈ fs.map Prod.fst := by
  intro fs p hp
  obtain ⟨ks, hks, hsome⟩ := List.mem_filterMap.mp hp
  cases hf : F ks with
  | none => rw [hf] at hsome; simp at hsome
  | some t =>
    rw [hf] at hsome
    simp only [Option.map_some'] at hsome
    injection hsome with hps
    subst hps
    show ks.1 ∈ List.map Prod.fst fs
    exact List.mem_map_of_mem Prod.fst hks

lemma keys_extract_details (soup : Soup) :
    ∀ p ∈ extract_details soup, p.1 ∈ (detailFields ++ customFields).map Prod.fst := by
  intro p hp
  rw [extract_details_eq] at hp
  exact fst_mem_of_mem_filterMap (fun ks => soup.selectOne ks.2) _ p hp

lemma keys_extract_dates (soup : Soup) :
    ∀ p ∈ extract_date_data soup, p.1 ∈ dateFields.map Prod.fst := by
  intro p hp
  rw [extract_date_data_eq] at hp
  exact fst_mem_of_mem_filterMap (fun ks => (soup.dateSpan ks.2).bind id) _ p hp

lemma keys_extract_people (soup : Soup) :
    ∀ p ∈ extract_people_data soup, p.1 = "Assignee" ∨ p.1 = "Reporter" := by
  intro p hp
  cases hps : soup.peopleSection with
  | none => simp [extract_people_data, hps] at hp
  | some ps =>
    obtain ⟨av, rv⟩ := ps
    simp only [extract_people_data, hps] at hp
    rcases List.mem_append.mp hp with h | h
    · cases av with
      | none => simp at h
      | some a =>
        simp at h
        exact Or.inl (by rw [h])
    · cases rv with
      | none => simp at h
      | some r =>
        simp at h
        exact Or.inr (by rw [h])

lemma lookup_people_some (soup : Soup) (ps : PeopleSection)
    (h : soup.peopleSection = some ps) :
    List.lookup "Assignee" (extract_people_data soup) = ps.assigneeVal ∧
    List.lookup "Reporter" (extract_people_data soup) = ps.reporterVal := by
  obtain ⟨av, rv⟩ := ps
  cases av <;> cases rv <;>
    exact ⟨by simp only [extract_people_data, h]; rfl,
      by simp only [extract_people_data, h]; rfl⟩

/-- The keys written before `Description` and `Comments` are all distinct
from both. -/
lemma keys_before_description (url : String) (soup : Soup) :
    ∀ p ∈ [("URL", url)] ++ extract_details soup ++ extract_people_data soup ++
      extract_date_data soup, p.1 ≠ "Description" ∧ p.1 ≠ "Comments" := by
  intro p hp
  rcases List.mem_append.mp hp with hp' | hdate
  · rcases List.mem_append.mp hp' with hp'' | hpeople
    · rcases List.mem_append.mp hp'' with hurl | hdet
      · simp only [List.mem_singleton] at hurl
        rw [hurl]
        exact ⟨show "URL" ≠ "Description" by decide,
          show "URL" ≠ "Comments" by decide⟩
      · have hk := keys_extract_details soup p hdet
        have : ∀ k ∈ (detailFields ++ customFields).map Prod.fst,
            k ≠ "Description" ∧ k ≠ "Comments" := by decide
        exact this p.1 hk
    · rcases keys_extract_people soup p hpeople with h | h <;> rw [h] <;>
        exact ⟨by decide, by decide⟩
  · have hk := keys_extract_dates soup p hdate
    have : ∀ k ∈ dateFields.map Prod.fst,
        k ≠ "Description" ∧ k ≠ "Comments" := by decide
    exact this p.1 hk

lemma lookup_url_process (url : String) (soup : Soup) :
    List.lookup "URL" (process_issue url soup) = some url := by
  show List.lookup "URL" ((("URL", url) :: []) ++ _ ++ _ ++ _ ++ _ ++ _) = some url
  simp only [List.cons_append, List.nil_append]
  exact List.lookup_cons_self

lemma lookup_description_process (url : String) (soup : Soup) :
    List.lookup "Description" (process_issue url soup) =
      some (extract_description_data soup) := by
  show List.lookup "Description"
    (([("URL", url)] ++ extract_details soup ++ extract_people_data soup ++
      extract_date_data soup ++ [("Description", extract_description_data soup)]) ++
      [("Comments", formatComments (extract_comments soup))]) = _
  apply lookup_append_left
  rw [lookup_append_right]
  · rfl
  · apply lookup_eq_none_of_keys
    intro p hp
    exact (keys_before_description url soup p hp).1

lemma lookup_comments_process (url : String) (soup : Soup) :
    List.lookup "Comments" (process_issue url soup) =
      some (formatComments (extract_comments soup)) := by
  show List.lookup "Comments"
    (([("URL", url)] ++ extract_details soup ++ extract_people_data soup ++
      extract_date_data soup ++ [("Description", extract_description_data soup)]) ++
      [("Comments", formatComments (extract_comments soup))]) = _
  rw [lookup_append_right]
  · rfl
  · apply lookup_eq_none_of_keys
    intro p hp
    rcases List.mem_append.mp hp with hpre | hdesc
    · exact (keys_before_description url soup p hpre).2
    · simp only [List.mem_singleton] at hdesc
      rw [hdesc]
      exact show "Description" ≠ "Comments" by decide

lemma findUserHoverAnchor_eq_none :
    ∀ anchors : List Anchor,
    (∀ a ∈ anchors, ∀ cls, a.classes = some cls → "user-hover" ∉ cls) →
    findUserHoverAnchor anchors = none := by
  intro anchors
  induction anchors with
  | nil => intro _; rfl
  | cons a rest ih =>
    intro h
    cases hcl : a.classes with
    | none =>
      simp only [findUserHoverAnchor, hcl]
      exact ih (fun x hx => h x (by simp [hx]))
    | some cls =>
      have : "user-hover" ∉ cls := h a (by simp) cls hcl
      simp only [findUserHoverAnchor, hcl, if_neg this]
      exact ih (fun x hx => h x (by simp [hx]))

lemma clean_text_unknown : clean_text "Unknown" = "Unknown" := rfl

lemma formatComments_of_ne_nil {cs : List Cmt} (h : cs ≠ []) :
    formatComments cs = pyJoinBar (cs.map commentSeg) := by
  simp [formatComments, h]

lemma mainLoop_all_ok : ∀ recs : List (List (String × String)),
    mainLoop (recs.map Except.ok) = Except.ok recs := by
  intro recs
  induction recs with
  | nil => rfl
  | cons r rest ih => simp [mainLoop, ih, Except.map]

lemma mainLoop_error (e : String)
    (post : List (Except String (List (String × String)))) :
    ∀ pre : List (List (String × String)),
    mainLoop (pre.map Except.ok ++ Except.error e :: post) = Except.error e := by
  intro pre
  induction pre with
  | nil => rfl
  | cons r rest ih => simp [mainLoop, ih, Except.map]

lemma takeWhile_all_append (p : Char → Bool) :
    ∀ (ds : List Char) (b : Char) (t : List Char),
    (∀ c ∈ ds, p c = true) → p b = false →
    (ds ++ b :: t).takeWhile p = ds := by
  intro ds
  induction ds with
  | nil =>
    intro b t _ hb
    simp [List.takeWhile_cons, hb]
  | cons c ds' ih =>
    intro b t h hb
    have hc : p c = true := h c (by simp)
    simp only [List.cons_append, List.takeWhile_cons, hc, if_true]
    rw [ih b t (fun x hx => h x (by simp [hx])) hb]

lemma searchPageLast_at_start (ds post : List Char)
    (hne : ds ≠ []) (hdig : ∀ c ∈ ds, c.isDigit = true) :
    searchPageLast ("page=".data ++ (ds ++ (">; rel=\"last\"".data ++ post))) =
      some (digitsVal ds) := by
  have hshape : "page=".data ++ (ds ++ (">; rel=\"last\"".data ++ post)) =
      'p' :: ("age=".data ++ (ds ++ (">; rel=\"last\"".data ++ post))) := rfl
  rw [hshape]
  have hpf : "page=".data.isPrefixOf
      ('p' :: ("age=".data ++ (ds ++ (">; rel=\"last\"".data ++ post)))) = true := by
    apply List.isPrefixOf_iff_prefix.mpr
    exact List.prefix_append "page=".data (ds ++ (">; rel=\"last\"".data ++ post))
  have hdrop : ('p' :: ("age=".data ++ (ds ++ (">; rel=\"last\"".data ++ post)))).drop 5 =
      ds ++ (">; rel=\"last\"".data ++ post) := by
    exact List.drop_left' rfl
  have htake : (ds ++ (">; rel=\"last\"".data ++ post)).takeWhile Char.isDigit = ds := by
    have : ">; rel=\"last\"".data ++ post = '>' :: ("; rel=\"last\"".data ++ post) := rfl
    rw [this]
    exact takeWhile_all_append Char.isDigit ds '>' _ hdig (by decide)
  have hds : ds.isEmpty = false := by
    simpa using hne
  have hdrop2 : (ds ++ (">; rel=\"last\"".data ++ post)).drop ds.length =
      ">; rel=\"last\"".data ++ post := List.drop_left' rfl
  have hpf2 : ">; rel=\"last\"".data.isPrefixOf (">; rel=\"last\"".data ++ post) = true := by
    apply List.isPrefixOf_iff_prefix.mpr
    exact List.prefix_append _ post
  simp only [searchPageLast, matchPageLast, hpf, if_true, hdrop, htake, hds,
    Bool.false_eq_true, if_false, hdrop2, hpf2]

end Crawler

open Crawler

/-- C7: `clean_text` replaces every maximal whitespace run by a single
space and trims the ends, so its output never contains two adjacent
whitespace characters and never starts or ends with whitespace. -/
theorem c7_clean_text_normalized (s : String) :
    noTwoAdjWs (clean_text s).data = true ∧
    noLeadingWs (clean_text s).data = true ∧
    noTrailingWs (clean_text s).data = true := by
  rw [clean_text_data]
  exact ⟨noTwoAdjWs_pyStrip (noTwoAdjWs_squeezeWs _),
    (pyStrip_props _).1, (pyStrip_props _).2⟩

/-- C1: over any trace of index pages, the reference list built by
`crawl_issue_list` contains each URL exactly once (it is duplicate-free,
and a URL belongs to it exactly when it occurred on a visited page), and
the references appear in first-seen order: the result is exactly the
first-seen deduplication of the URL stream in visit order. -/
theorem c1_crawl_dedup_first_seen (trace : List PageStep) :
    (crawl_issue_list trace).Nodup ∧
    (∀ u, u ∈ crawl_issue_list trace ↔ u ∈ traceUrls trace) ∧
    crawl_issue_list trace = firstSeenDedup (traceUrls trace) := by
  refine ⟨?_, ?_, crawl_issue_list_eq trace⟩
  · rw [crawl_issue_list_eq]
    exact firstSeenDedup_nodup _
  · intro u
    rw [crawl_issue_list_eq]
    exact mem_firstSeenDedup _ u

/-- C4: any error while locating or activating the "next" control ends
index enumeration normally with the references collected so far — the
steps after the failing one never contribute — and when the control
already fails on the first page the result is exactly that single page's
references. -/
theorem c4_next_error_terminates (pre : List PageStep) (step : PageStep)
    (post : List PageStep) (e : String)
    (hpre : ∀ s ∈ pre, s.next = Except.ok ())
    (hstep : step.next = Except.error e) :
    crawl_issue_list (pre ++ step :: post) = crawl_issue_list (pre ++ [step]) ∧
    crawl_issue_list (step :: post) = scrapePage [] step := by
  constructor
  · exact crawlLoop_break pre [] step post e hpre hstep
  · show crawlLoop [] (step :: post) = scrapePage [] step
    simp [crawlLoop, hstep]

/-- Witness for C4 at a concrete trace: the page after the failed click
never contributes, and a first-page failure returns exactly that page's
references. -/
theorem c4_next_error_terminates_witness :
    crawl_issue_list [⟨some [some "/a"], Except.ok ()⟩,
        ⟨some [some "/b"], Except.error "timeout"⟩,
        ⟨some [some "/c"], Except.ok ()⟩] =
      crawl_issue_list [⟨some [some "/a"], Except.ok ()⟩,
        ⟨some [some "/b"], Except.error "timeout"⟩] ∧
    crawl_issue_list [⟨some [some "/b"], Except.error "timeout"⟩,
        ⟨some [some "/c"], Except.ok ()⟩] =
      scrapePage [] ⟨some [some "/b"], Except.error "timeout"⟩ := by
  have h := c4_next_error_terminates [⟨some [some "/a"], Except.ok ()⟩]
    ⟨some [some "/b"], Except.error "timeout"⟩ [⟨some [some "/c"], Except.ok ()⟩]
    "timeout" (by intro s hs; rw [List.mem_singleton] at hs; rw [hs]) rfl
  exact h

/-- C5: extraction never fails on a missing optional field — looking up a
field key in the extracted details returns exactly what the page holds
for its selector (`none`, i.e. the key is absent, when the element is
missing; the text when it is present), the people section contributes
nothing when absent, and the `Assignee`/`Reporter` entries mirror their
optional spans when it is present. -/
theorem c5_optional_fields (soup : Soup) (k sel : String)
    (hmem : (k, sel) ∈ detailFields ++ customFields) :
    List.lookup k (extract_details soup) = soup.selectOne sel ∧
    (soup.peopleSection = none → extract_people_data soup = []) ∧
    (∀ ps, soup.peopleSection = some ps →
      List.lookup "Assignee" (extract_people_data soup) = ps.assigneeVal ∧
      List.lookup "Reporter" (extract_people_data soup) = ps.reporterVal) := by
  refine ⟨?_, ?_, ?_⟩
  · rw [extract_details_eq]
    exact lookup_filterMap_assoc soup.selectOne _ k sel (by decide) hmem
  · intro h
    simp [extract_people_data, h]
  · intro ps h
    exact lookup_people_some soup ps h

/-- Witness for C5 on a page with `Type="Bug"` and `Assignee` missing:
the record contains `Type`, omits `Priority` and `Assignee`, and nothing
fails. -/
theorem c5_optional_fields_witness :
    List.lookup "Type" (extract_details soupTypeOnly) = some "Bug" ∧
    List.lookup "Priority" (extract_details soupTypeOnly) = none ∧
    List.lookup "Assignee" (extract_people_data soupTypeOnly) = none := by
  refine ⟨?_, ?_, ?_⟩
  · have h := (c5_optional_fields soupTypeOnly "Type" "#type-val" (by decide)).1
    rw [h]
    rfl
  · have h := (c5_optional_fields soupTypeOnly "Priority" "#priority-val" (by decide)).1
    rw [h]
    rfl
  · have h := ((c5_optional_fields soupTypeOnly "Type" "#type-val" (by decide)).2.2
      ⟨none, none⟩ rfl).1
    rw [h]

/-- C9: every record produced by `process_issue` carries the keys `URL`,
`Description` and `Comments`: `URL` maps to the input reference,
`Description` and `Comments` are always present, and each is `""` when
the description element is absent or no comments were extracted. -/
theorem c9_record_constant_keys (url : String) (soup : Soup) :
    List.lookup "URL" (process_issue url soup) = some url ∧
    List.lookup "Description" (process_issue url soup) =
      some (extract_description_data soup) ∧
    List.lookup "Comments" (process_issue url soup) =
      some (formatComments (extract_comments soup)) ∧
    (soup.descriptionDiv = none →
      List.lookup "Description" (process_issue url soup) = some "") ∧
    (extract_comments soup = [] →
      List.lookup "Comments" (process_issue url soup) = some "") := by
  refine ⟨lookup_url_process url soup, lookup_description_process url soup,
    lookup_comments_process url soup, ?_, ?_⟩
  · intro h
    rw [lookup_description_process]
    simp [extract_description_data, h]
  · intro h
    rw [lookup_comments_process, h]
    rfl

/-- Witness for C9 on a page where every queried element is missing: the
record still holds the three keys, `URL` with the input and the other two
with empty defaults. -/
theorem c9_record_constant_keys_witness :
    List.lookup "URL" (process_issue "u" soupEmpty) = some "u" ∧
    List.lookup "Description" (process_issue "u" soupEmpty) = some "" ∧
    List.lookup "Comments" (process_issue "u" soupEmpty) = some "" := by
  refine ⟨(c9_record_constant_keys "u" soupEmpty).1, ?_, ?_⟩
  · exact (c9_record_constant_keys "u" soupEmpty).2.2.2.1 rfl
  · exact (c9_record_constant_keys "u" soupEmpty).2.2.2.2 rfl

/-- C10: a comment whose `action-details` div contains no anchor with
class `user-hover` is still emitted by `extract_comments`, with its
commenter set to the sentinel `"Unknown"` rather than being dropped. -/
theorem c10_unknown_commenter (soup : Soup) (divs : List CommentDiv)
    (div : CommentDiv) (con : ConciseDiv) (det : DetailsDiv)
    (hc : soup.commentsContainer = some divs) (hdiv : div ∈ divs)
    (hcon : div.concise = some con) (hdet : con.details = some det)
    (hanchor : ∀ a ∈ det.anchors, ∀ cls, a.classes = some cls → "user-hover" ∉ cls) :
    commentFromDiv div = some ⟨"Unknown", clean_text det.text⟩ ∧
    (⟨"Unknown", clean_text det.text⟩ : Cmt) ∈ extract_comments soup := by
  have hfind : findUserHoverAnchor det.anchors = none :=
    findUserHoverAnchor_eq_none det.anchors hanchor
  have hdivc : commentFromDiv div = some ⟨"Unknown", clean_text det.text⟩ := by
    simp only [commentFromDiv, hcon, hdet, hfind, clean_text_unknown]
  refine ⟨hdivc, ?_⟩
  simp only [extract_comments, hc]
  exact List.mem_filterMap.mpr ⟨div, hdiv, hdivc⟩

/-- Witness for C10 on a page whose single comment has two anchors, none
with the `user-hover` class: the comment is emitted with commenter
`"Unknown"`. -/
theorem c10_unknown_commenter_witness :
    commentFromDiv ⟨some ⟨some ⟨[⟨none, "x"⟩, ⟨some ["foo"], "y"⟩], "hi"⟩⟩⟩ =
      some ⟨"Unknown", "hi"⟩ ∧
    (⟨"Unknown", "hi"⟩ : Cmt) ∈ extract_comments soupUnknownComment := by
  have h := c10_unknown_commenter soupUnknownComment
    [⟨some ⟨some ⟨[⟨none, "x"⟩, ⟨some ["foo"], "y"⟩], "hi"⟩⟩⟩]
    ⟨some ⟨some ⟨[⟨none, "x"⟩, ⟨some ["foo"], "y"⟩], "hi"⟩⟩⟩
    ⟨some ⟨[⟨none, "x"⟩, ⟨some ["foo"], "y"⟩], "hi"⟩⟩
    ⟨[⟨none, "x"⟩, ⟨some ["foo"], "y"⟩], "hi"⟩
    rfl (by simp) rfl rfl ?hanchor
  · exact h
  case hanchor =>
    intro a ha cls hcls
    rcases List.mem_cons.mp ha with rfl | ha2
    · exact Option.noConfusion hcls
    · rcases List.mem_cons.mp ha2 with rfl | ha3
      · injection hcls with hcl
        rw [← hcl]
        decide
      · simp at ha3

/-- C2 counterexample: on a detail page from which exactly one comment
pair is extracted, whose text contains `" | "`, the flattened comment
string stored by `process_issue` splits on `" | "` into 2 segments, not
1. -/
theorem c2_counterexample :
    (extract_comments soupBarComment).length = 1 ∧
    List.lookup "Comments" (process_issue "u" soupBarComment) =
      some "Unknown: x | y" ∧
    (splitBar (formatComments (extract_comments soupBarComment)).data).length = 2 := by
  exact ⟨rfl, rfl, rfl⟩

/-- C2 (amended): for a detail page with `N ≥ 1` extracted comments, none
of whose `"<author>: <text>"` segments contains the delimiter `" | "` or
ends with `" |"`, the flattened comment string stored by `process_issue`
splits on `" | "` into exactly the `N` segments `"<author>: <text>"`, in
extraction order. -/
theorem c2_comment_flattening (url : String) (soup : Soup)
    (hne : extract_comments soup ≠ [])
    (hok : ∀ c ∈ extract_comments soup,
      hasBar (commentSeg c).data = false ∧
      ([' ', '|'] <:+ (commentSeg c).data → False)) :
    List.lookup "Comments" (process_issue url soup) =
      some (formatComments (extract_comments soup)) ∧
    splitBar (formatComments (extract_comments soup)).data =
      (extract_comments soup).map (fun c => (commentSeg c).data) ∧
    (splitBar (formatComments (extract_comments soup)).data).length =
      (extract_comments soup).length := by
  have hsplit : splitBar (formatComments (extract_comments soup)).data =
      (extract_comments soup).map (fun c => (commentSeg c).data) := by
    rw [formatComments_of_ne_nil hne, pyJoinBar_data, List.map_map]
    apply splitBar_joinBar
    · simp [hne]
    · intro s hs
      obtain ⟨c, hc, rfl⟩ := List.mem_map.mp hs
      exact hok c hc
  exact ⟨lookup_comments_process url soup, hsplit, by rw [hsplit, List.length_map]⟩

/-- Witness for the amended C2 on a one-comment page: exactly one
segment, `"Unknown: hi"`. -/
theorem c2_comment_flattening_witness :
    splitBar (formatComments (extract_comments soupUnknownComment)).data =
      [(commentSeg ⟨"Unknown", "hi"⟩).data] ∧
    (splitBar (formatComments (extract_comments soupUnknownComment)).data).length = 1 := by
  have h := c2_comment_flattening "u" soupUnknownComment (by decide) ?hok
  · exact ⟨h.2.1, h.2.2⟩
  case hok =>
    intro c hc
    have hcl : extract_comments soupUnknownComment = [⟨"Unknown", "hi"⟩] := rfl
    rw [hcl, List.mem_singleton] at hc
    subst hc
    exact ⟨by decide, by decide⟩

/-- C3 counterexample: with a transport failure on the first reference
and a success on the second, `main`'s per-reference loop propagates the
error — the run aborts and the surviving record is never produced,
instead of the failure being skipped and the run continuing. -/
theorem c3_counterexample :
    mainLoop [Except.error "net", Except.ok [("URL", "u")]] = Except.error "net" ∧
    mainLoop [Except.error "net", Except.ok [("URL", "u")]] ≠
      Except.ok [[("URL", "u")]] := by
  refine ⟨rfl, ?_⟩
  intro h
  exact Except.noConfusion h

/-- C3 (amended): a transport-level failure while fetching one item
reference propagates out of the per-reference loop — the run aborts at
the first failing reference with that error and produces no dataset,
references after it are not processed; with no failures the records are
produced in order; and `get_repo_languages` raises on any non-200 status
instead of logging and skipping. -/
theorem c3_transport_failure_aborts (pre : List (List (String × String)))
    (e : String) (post : List (Except String (List (String × String)))) :
    mainLoop (pre.map Except.ok ++ Except.error e :: post) = Except.error e ∧
    mainLoop (pre.map Except.ok) = Except.ok pre ∧
    (∀ resp : LangResp, resp.status ≠ 200 →
      get_repo_languages resp =
        Except.error ("Error fetching languages: " ++ toString resp.status)) := by
  refine ⟨mainLoop_error e post pre, mainLoop_all_ok pre, ?_⟩
  intro resp h
  simp [get_repo_languages, h]

/-- Witness for the amended C3: a concrete failing run aborts with the
error, and a 404 languages response raises. -/
theorem c3_transport_failure_aborts_witness :
    mainLoop [Except.ok [("URL", "a")], Except.error "net"] = Except.error "net" ∧
    get_repo_languages ⟨404, []⟩ = Except.error "Error fetching languages: 404" := by
  have h := c3_transport_failure_aborts [[("URL", "a")]] "net" []
  refine ⟨h.1, ?_⟩
  have h2 := h.2.2 ⟨404, []⟩ (by decide)
  rw [h2]
  rfl

/-- C6 counterexample: `get_number_commits` with a `Link` header that has
no matching segment raises `AttributeError` instead of returning the
number of items in the returned list (3); and `get_paged_info`'s count is
0 on a 204 response even when its `Link` header carries a matching
`rel="last"` segment with page number 2. -/
theorem c6_counterexample :
    get_number_commits ⟨200, some "nope".data, some (PyObj.plist 3)⟩ =
      Except.error "AttributeError" ∧
    get_number_commits ⟨200, some "nope".data, some (PyObj.plist 3)⟩ ≠
      Except.ok 3 ∧
    pagedCount ⟨204, some "page=2>; rel=\"last\"".data, some (PyObj.plist 5)⟩ = 0 ∧
    (0 : Nat) ≠ 2 := by
  refine ⟨rfl, ?_, rfl, by decide⟩
  intro h
  exact Except.noConfusion h

/-- C6 (amended): for `get_paged_info`, a 204 status or an unparsable
body yields 0; otherwise, with a `Link` header the count is the matched
last page number, falling back to `len(data)` when nothing matches, and
with no `Link` header it is `len(data)` for a list body and 0 otherwise.
For `get_number_commits`, a `Link` header yields the matched page number,
or an `AttributeError` when nothing matches; with no header the count is
`len` of the parsed body.  A header beginning with
`page=<digits>>; rel="last"` matches with exactly that digit group's
numeric value. -/
theorem c6_paged_counts (resp : Resp) (data : PyObj) (lh ds post : List Char) :
    (resp.status = 204 → pagedCount resp = 0) ∧
    (resp.status ≠ 204 → resp.body = none → pagedCount resp = 0) ∧
    (resp.status ≠ 204 → resp.body = some data → resp.link = some lh →
      pagedCount resp = (match searchPageLast lh with
        | some n => n
        | none => pyLen data)) ∧
    (resp.status ≠ 204 → resp.body = some data → resp.link = none →
      pagedCount resp = (if isPyList data then pyLen data else 0)) ∧
    (resp.link = some lh → get_number_commits resp =
      (match searchPageLast lh with
        | some n => Except.ok n
        | none => Except.error "AttributeError")) ∧
    (resp.link = none → resp.body = some data →
      get_number_commits resp = Except.ok (pyLen data)) ∧
    (ds ≠ [] → (∀ c ∈ ds, c.isDigit = true) →
      searchPageLast ("page=".data ++ (ds ++ (">; rel=\"last\"".data ++ post))) =
        some (digitsVal ds)) := by
  refine ⟨?_, ?_, ?_, ?_, ?_, ?_,
    fun h1 h2 => searchPageLast_at_start ds post h1 h2⟩
  · intro h
    simp [pagedCount, h]
  · intro h hb
    simp [pagedCount, h, hb]
  · intro h hb hl
    simp [pagedCount, h, hb, hl]
  · intro h hb hl
    simp [pagedCount, h, hb, hl]
  · intro hl
    simp [get_number_commits, hl]
  · intro hl hb
    simp [get_number_commits, hl, hb]

/-- Witness for the amended C6 on concrete responses: a GitHub-style
`Link` header yields the last page number 7, a missing header yields the
body length, and a header beginning with a matching segment parses to its
digit group. -/
theorem c6_paged_counts_witness :
    pagedCount ⟨200, some "<https://x?page=7>; rel=\"last\"".data,
      some (PyObj.plist 1)⟩ = 7 ∧
    get_number_commits ⟨200, none, some (PyObj.plist 3)⟩ = Except.ok 3 ∧
    searchPageLast ("page=".data ++ (['7'] ++ (">; rel=\"last\"".data ++ []))) =
      some 7 := by
  refine ⟨?_, ?_, ?_⟩
  · have h := (c6_paged_counts ⟨200, some "<https://x?page=7>; rel=\"last\"".data,
      some (PyObj.plist 1)⟩ (PyObj.plist 1) "<https://x?page=7>; rel=\"last\"".data
      ['7'] []).2.2.1 (by decide) rfl rfl
    rw [h]
    rfl
  · have h := (c6_paged_counts ⟨200, none, some (PyObj.plist 3)⟩ (PyObj.plist 3)
      [] [] []).2.2.2.2.2.1 rfl rfl
    rw [h]
    rfl
  · have h := (c6_paged_counts ⟨200, none, some (PyObj.plist 3)⟩ (PyObj.plist 3)
      [] ['7'] []).2.2.2.2.2.2 (by decide) (by decide)
    exact h

/-- C8: whitespace normalization is idempotent —
`clean_text (clean_text s) = clean_text s` for every string `s`. -/
theorem c8_clean_text_idempotent (s : String) :
    clean_text (clean_text s) = clean_text s := by
  have hadj : noTwoAdjWs (clean_text s).data = true :=
    (c7_clean_text_normalized s).1
  have hsp : wsOnlySpace (clean_text s).data = true := by
    rw [clean_text_data]
    exact wsOnlySpace_pyStrip (wsOnlySpace_squeezeWs _)
  have hlead : noLeadingWs (clean_text s).data = true :=
    (c7_clean_text_normalized s).2.1
  have htrail : noTrailingWs (clean_text s).data = true :=
    (c7_clean_text_normalized s).2.2
  show String.mk (pyStrip (squeezeWs (clean_text s).data)) = clean_text s
  rw [squeezeWs_eq_self hadj hsp]
  unfold pyStrip
  rw [dropWhile_eq_self_of_noLeading hlead,
    rdropWhile_eq_self_of_noTrailing htrail]
